import Mathlib

/-!
Verification of the meet-speaking-time core against its specification.

The development shallowly embeds the two core components of the source:

* the Speaking-Time Tracker (src/src/Participant.ts), and
* the Caption Reconciliation Engine (src/src/Utils.ts: formatTime,
  mergeStrings, ClosedCaptionEvent, ClosedCaptions).

Timestamps and durations are JavaScript numbers carrying millisecond epoch
values; they are modelled as integers.  Nullable number fields are modelled
as `Option Int`, and JavaScript truthiness tests (`if (x)`) on such fields
are modelled by `jsTruthy`, which is false both for `null` and for the
number `0`.  Texts are modelled as lists of characters (one element per
UTF-16 code unit of the JavaScript string).  Code that can throw at run
time is modelled in `Option`, `none` standing for a thrown exception.
-/

/-! ## Speaking-Time Tracker (src/src/Participant.ts) -/

/-- JavaScript truthiness of a nullable number: `null` and `0` are falsy. -/
def jsTruthy : Option Int → Bool
  | none => false
  | some v => v != 0

/-- The per-participant mutable state of `Participant`
(src/src/Participant.ts lines 14-17): `speakingStrikeStart` and
`lastSpeakingEnd` are nullable timestamps, the two accumulators start at 0. -/
structure PState where
  speakingStrikeStart : Option Int
  lastSpeakingEnd : Option Int
  speakingStrikeTime : Int
  totalSpeakingTime : Int
deriving DecidableEq, Repr

/-- The state of a freshly constructed `Participant`. -/
def initParticipant : PState :=
  { speakingStrikeStart := none
    lastSpeakingEnd := none
    speakingStrikeTime := 0
    totalSpeakingTime := 0 }

/-- `Participant.getLiveSpeakingTime` (lines 43-50): 0 when
`speakingStrikeStart` is falsy, otherwise `now - speakingStrikeStart`. -/
def getLiveSpeakingTime (st : PState) (now : Int) : Int :=
  match st.speakingStrikeStart with
  | none => 0
  | some s => if s = 0 then 0 else now - s

/-- `Participant.getSpeakingStrikeTime` (lines 57-60). -/
def getSpeakingStrikeTime (st : PState) (now : Int) : Int :=
  st.speakingStrikeTime + getLiveSpeakingTime st now

/-- `Participant.getTotalSpeakingTime` (lines 67-69). -/
def getTotalSpeakingTime (st : PState) (now : Int) : Int :=
  st.totalSpeakingTime + getLiveSpeakingTime st now

/-- `Participant.spokeRecently` (lines 71-80).  The threshold is the local
constant `RECENCY_THRESHOLD_MS = 2000`.  A falsy `referenceTime` argument
(`null` or `0`) is replaced by the current wall-clock time `now`. -/
def spokeRecently (st : PState) (referenceTime : Option Int) (now : Int) : Bool :=
  let ref : Int :=
    match referenceTime with
    | none => now
    | some r => if r = 0 then now else r
  match st.lastSpeakingEnd with
  | none => false
  | some e => decide (e < ref - 2000)

/-- `Participant.incrementSpeakingTime` (lines 125-130): clears the strike
start and adds `value` to both accumulators. -/
def incrementSpeakingTime (st : PState) (value : Int) : PState :=
  { st with
    speakingStrikeStart := none
    totalSpeakingTime := st.totalSpeakingTime + value
    speakingStrikeTime := st.speakingStrikeTime + value }

/-- `Participant.speaking` (lines 82-92): if `speakingStrikeStart` is falsy,
record `now` as the start of the strike; otherwise do nothing. -/
def speaking (st : PState) (now : Int) : PState :=
  if jsTruthy st.speakingStrikeStart then st
  else { st with speakingStrikeStart := some now }

/-- `Participant.pauseSpeaking` (lines 97-114): unconditionally record
`lastSpeakingEnd = now`; then, if `speakingStrikeStart` is truthy, commit
`now - speakingStrikeStart` via `incrementSpeakingTime`. -/
def pauseSpeaking (st : PState) (now : Int) : PState :=
  let st1 := { st with lastSpeakingEnd := some now }
  match st1.speakingStrikeStart with
  | none => st1
  | some s => if s = 0 then st1 else incrementSpeakingTime st1 (now - s)

/-- The edge signal dispatch of the microphone observer
(src/src/Participant.ts lines 149-155): a true signal calls `speaking`,
a false signal calls `pauseSpeaking`. -/
def onSignal (isSpeaking : Bool) (now : Int) (st : PState) : PState :=
  if isSpeaking then speaking st now else pauseSpeaking st now

/-! ## Claim C1: direction of the recency comparison -/

/-- The predicate the claim asserts `spokeRecently` computes: the last
utterance is recorded and `lastSpeakingEnd < referenceTime - threshold` is
false. -/
def spokeRecentlyClaim (st : PState) (referenceTime : Int) : Prop :=
  ∃ e, st.lastSpeakingEnd = some e ∧ ¬ (e < referenceTime - 2000)

/-- C1 counterexample: a participant whose last utterance ended at 1000 and
reference time 5000.  The claim predicts `false` (the comparison
`1000 < 3000` is true, so its negation fails), but the code returns
`true`. -/
theorem spokeRecently_claim_false :
    spokeRecently
      { speakingStrikeStart := none
        lastSpeakingEnd := some 1000
        speakingStrikeTime := 0
        totalSpeakingTime := 0 } (some 5000) 7 = true ∧
    ¬ spokeRecentlyClaim
      { speakingStrikeStart := none
        lastSpeakingEnd := some 1000
        speakingStrikeTime := 0
        totalSpeakingTime := 0 } 5000 := by
  constructor
  · decide
  · rintro ⟨e, he, hlt⟩
    cases he
    exact hlt (by decide)

/-- C1 (amended): for a truthy reference time, `spokeRecently` returns true
iff `lastSpeakingEnd` is set and `lastSpeakingEnd < referenceTime - 2000` is
TRUE, i.e. the participant's last utterance ended more than the threshold
before the reference time (the comparison direction is the opposite of the
one the claim states). -/
theorem spokeRecently_iff (st : PState) (r now : Int) (hr : r ≠ 0) :
    spokeRecently st (some r) now = true ↔
      ∃ e, st.lastSpeakingEnd = some e ∧ e < r - 2000 := by
  unfold spokeRecently
  simp only [if_neg hr]
  cases h : st.lastSpeakingEnd with
  | none => simp
  | some e => simp

/-- Witness for `spokeRecently_iff` at a concrete input. -/
theorem spokeRecently_iff_witness :
    (5000 : Int) ≠ 0 ∧
    (spokeRecently
      { speakingStrikeStart := none
        lastSpeakingEnd := some 1000
        speakingStrikeTime := 0
        totalSpeakingTime := 0 } (some 5000) 7 = true ↔
      ∃ e, ({ speakingStrikeStart := none
              lastSpeakingEnd := some 1000
              speakingStrikeTime := 0
              totalSpeakingTime := 0 } : PState).lastSpeakingEnd = some e ∧
            e < 5000 - 2000) :=
  ⟨by decide, spokeRecently_iff _ 5000 7 (by decide)⟩

/-! ## Claim C2: strike accounting -/

/-- C2 counterexample: starting a strike at timestamp `t1 = 0` stores the
falsy number 0 in `speakingStrikeStart`, so the following pause commits
nothing: `totalSpeakingTime` stays 0 instead of `t2 - t1`, and the strike
start is not cleared. -/
theorem strike_accounting_zero_start :
    (0 : Int) < 5 ∧
    (onSignal false 5 (onSignal true 0 initParticipant)).totalSpeakingTime ≠ 5 - 0 ∧
    (onSignal false 5 (onSignal true 0 initParticipant)).speakingStrikeStart ≠ none := by
  decide

/-- C2 (amended): for a nonzero `t1` (a strike starting at the falsy
timestamp 0 is treated as absent by the code's truthiness tests),
`onSignal(true, t1)` followed by `onSignal(false, t2)` with `t2 > t1` on a
fresh participant yields `totalSpeakingTime = t2 - t1`, clears
`speakingStrikeStart` and sets `lastSpeakingEnd = t2`; moreover a true
signal received while a strike is running is a no-op. -/
theorem strike_accounting (t1 t2 : Int) (h1 : t1 ≠ 0) (hlt : t1 < t2) :
    (onSignal false t2 (onSignal true t1 initParticipant)).totalSpeakingTime = t2 - t1 ∧
    (onSignal false t2 (onSignal true t1 initParticipant)).speakingStrikeStart = none ∧
    (onSignal false t2 (onSignal true t1 initParticipant)).lastSpeakingEnd = some t2 ∧
    (∀ st : PState, jsTruthy st.speakingStrikeStart = true → onSignal true t2 st = st) := by
  refine ⟨?_, ?_, ?_, ?_⟩
  · simp [onSignal, speaking, pauseSpeaking, incrementSpeakingTime, initParticipant,
      jsTruthy, h1]
  · simp [onSignal, speaking, pauseSpeaking, incrementSpeakingTime, initParticipant,
      jsTruthy, h1]
  · simp [onSignal, speaking, pauseSpeaking, incrementSpeakingTime, initParticipant,
      jsTruthy, h1]
  · intro st hst
    simp [onSignal, speaking, hst]

/-- Witness for `strike_accounting` at `t1 = 10`, `t2 = 25`. -/
theorem strike_accounting_witness :
    (10 : Int) ≠ 0 ∧ (10 : Int) < 25 ∧
    ((onSignal false 25 (onSignal true 10 initParticipant)).totalSpeakingTime = 25 - 10 ∧
     (onSignal false 25 (onSignal true 10 initParticipant)).speakingStrikeStart = none ∧
     (onSignal false 25 (onSignal true 10 initParticipant)).lastSpeakingEnd = some 25 ∧
     (∀ st : PState, jsTruthy st.speakingStrikeStart = true → onSignal true 25 st = st)) :=
  ⟨by decide, by decide, strike_accounting 10 25 (by decide) (by decide)⟩

/-! ## Claim C10: a false signal while not speaking -/

/-- C10: a false signal received while `speakingStrikeStart` is unset is not
a no-op: it sets `lastSpeakingEnd` to `now` and leaves every other field
unchanged, so subsequent `spokeRecently` answers are computed from the
refreshed `lastSpeakingEnd`. -/
theorem pauseSpeaking_while_idle (st : PState) (now : Int)
    (h : st.speakingStrikeStart = none) :
    pauseSpeaking st now = { st with lastSpeakingEnd := some now } ∧
    (∀ r now2 : Int, r ≠ 0 →
      spokeRecently (pauseSpeaking st now) (some r) now2 = decide (now < r - 2000)) := by
  have hmain : pauseSpeaking st now = { st with lastSpeakingEnd := some now } := by
    simp [pauseSpeaking, h]
  refine ⟨hmain, ?_⟩
  intro r now2 hr
  rw [hmain]
  simp [spokeRecently, hr]

/-- Witness for `pauseSpeaking_while_idle` on a fresh participant. -/
theorem pauseSpeaking_while_idle_witness :
    initParticipant.speakingStrikeStart = none ∧
    (pauseSpeaking initParticipant 1000 =
      { initParticipant with lastSpeakingEnd := some 1000 } ∧
     (∀ r now2 : Int, r ≠ 0 →
        spokeRecently (pauseSpeaking initParticipant 1000) (some r) now2 =
          decide (1000 < r - 2000))) :=
  ⟨rfl, pauseSpeaking_while_idle initParticipant 1000 rfl⟩

/-! ## Claim C3: monotonicity of the observed total speaking time -/

/-- The observations of `getTotalSpeakingTime` along a trace of signals:
after each `onSignal(b, t)` the total is read back at that same time `t`. -/
def obsTrace : PState → List (Bool × Int) → List Int
  | _, [] => []
  | st, (b, t) :: l =>
    getTotalSpeakingTime (onSignal b t st) t :: obsTrace (onSignal b t st) l

/-- One `onSignal` step neither decreases the observed total (when time does
not go backwards) nor records a strike start in the future. -/
lemma onSignal_step (st : PState) (b : Bool) (t t' : Int)
    (hinv : ∀ s, st.speakingStrikeStart = some s → s ≤ t) (htt : t ≤ t') :
    getTotalSpeakingTime st t ≤ getTotalSpeakingTime (onSignal b t' st) t' ∧
    (∀ s, (onSignal b t' st).speakingStrikeStart = some s → s ≤ t') := by
  cases hss : st.speakingStrikeStart with
  | none =>
    cases b with
    | true =>
      constructor
      · simp [onSignal, speaking, jsTruthy, hss, getTotalSpeakingTime,
          getLiveSpeakingTime]
      · intro s hs
        simp [onSignal, speaking, jsTruthy, hss] at hs
        omega
    | false =>
      constructor
      · simp [onSignal, pauseSpeaking, hss, getTotalSpeakingTime,
          getLiveSpeakingTime]
      · intro s hs
        simp [onSignal, pauseSpeaking, hss] at hs
  | some s0 =>
    have hs0t : s0 ≤ t := hinv s0 hss
    by_cases h0 : s0 = 0
    · subst h0
      cases b with
      | true =>
        constructor
        · simp [onSignal, speaking, jsTruthy, hss, getTotalSpeakingTime,
            getLiveSpeakingTime]
        · intro s hs
          simp [onSignal, speaking, jsTruthy, hss] at hs
          omega
      | false =>
        constructor
        · simp [onSignal, pauseSpeaking, hss, getTotalSpeakingTime,
            getLiveSpeakingTime]
        · intro s hs
          simp [onSignal, pauseSpeaking, hss] at hs
          omega
    · cases b with
      | true =>
        constructor
        · simp [onSignal, speaking, jsTruthy, hss, h0, getTotalSpeakingTime,
            getLiveSpeakingTime]
          omega
        · intro s hs
          simp [onSignal, speaking, jsTruthy, hss, h0] at hs
          omega
      | false =>
        constructor
        · simp [onSignal, pauseSpeaking, hss, h0, incrementSpeakingTime,
            getTotalSpeakingTime, getLiveSpeakingTime]
          omega
        · intro s hs
          simp [onSignal, pauseSpeaking, hss, h0, incrementSpeakingTime] at hs

/-- The observation list along any time-ordered trace forms an ascending
chain, starting from any state whose recorded strike start is in the past. -/
lemma obsTrace_chain (l : List (Bool × Int)) (st : PState) (t : Int)
    (hinv : ∀ s, st.speakingStrikeStart = some s → s ≤ t)
    (hchain : List.Chain' (fun a b => a.2 ≤ b.2) l)
    (hhead : ∀ p ∈ l.head?, t ≤ p.2) :
    List.Chain' (· ≤ ·) (getTotalSpeakingTime st t :: obsTrace st l) := by
  induction l generalizing st t with
  | nil => simp [obsTrace]
  | cons p l ih =>
    obtain ⟨b, t'⟩ := p
    have htt : t ≤ t' := hhead (b, t') rfl
    have hstep := onSignal_step st b t t' hinv htt
    rw [obsTrace, List.chain'_cons]
    refine ⟨hstep.1, ?_⟩
    exact ih (onSignal b t' st) t' hstep.2 (List.chain'_cons'.mp hchain).2
      (List.chain'_cons'.mp hchain).1

/-- C3: across any sequence of `onSignal` calls whose timestamps are
non-decreasing, the observed total speaking time (committed total plus the
live time of the open strike) is monotonically non-decreasing. -/
theorem totalTime_monotone (l : List (Bool × Int))
    (hl : List.Chain' (fun a b => a.2 ≤ b.2) l) :
    List.Chain' (· ≤ ·) (obsTrace initParticipant l) := by
  cases l with
  | nil => simp [obsTrace]
  | cons p l' =>
    obtain ⟨b, t⟩ := p
    rw [obsTrace]
    apply obsTrace_chain l' (onSignal b t initParticipant) t
    · intro s hs
      cases b with
      | true =>
        simp [onSignal, speaking, initParticipant, jsTruthy] at hs
        omega
      | false =>
        simp [onSignal, pauseSpeaking, initParticipant] at hs
    · exact (List.chain'_cons'.mp hl).2
    · exact (List.chain'_cons'.mp hl).1

/-- Witness for `totalTime_monotone` on a concrete trace. -/
theorem totalTime_monotone_witness :
    List.Chain' (fun a b => a.2 ≤ b.2)
      [((true : Bool), (10 : Int)), (false, 20), (true, 20), (false, 35)] ∧
    List.Chain' (· ≤ ·)
      (obsTrace initParticipant
        [((true : Bool), (10 : Int)), (false, 20), (true, 20), (false, 35)]) :=
  ⟨by norm_num [List.chain'_cons], totalTime_monotone _ (by norm_num [List.chain'_cons])⟩

/-! ## Time formatter (src/src/Utils.ts lines 6-31) -/

/-- Seconds digit pair of `formatTime`: `Math.floor((ms / 1000) % 60)`. -/
def fmtSeconds (ms : Nat) : Nat := ms / 1000 % 60

/-- Minutes digit pair of `formatTime`: `Math.floor((ms / 60000) % 60)`. -/
def fmtMinutes (ms : Nat) : Nat := ms / (60 * 1000) % 60

/-- Hours of `formatTime`: `Math.floor((ms / 3600000) % 3600)`. -/
def fmtHours (ms : Nat) : Nat := ms / (3600 * 1000) % 3600

/-- Two-digit zero padding: `x < 10 ? '0' + x : x`. -/
def pad2 (n : Nat) : String := if n < 10 then "0" ++ toString n else toString n

/-- `formatTime` (src/src/Utils.ts lines 6-31), built exactly as the code
builds `timeStr`: the string is extended in three steps and each step tests
the truthiness (non-emptiness) of the string built so far. -/
def formatTime (ms : Nat) : String :=
  let timeStr1 : String :=
    if fmtHours ms ≠ 0 then toString (fmtHours ms) ++ ":" else ""
  let timeStr2 : String :=
    if timeStr1 ≠ "" ∨ fmtMinutes ms ≠ 0 then
      (if timeStr1 ≠ "" then timeStr1 ++ pad2 (fmtMinutes ms)
       else timeStr1 ++ toString (fmtMinutes ms)) ++ ":"
    else timeStr1
  if timeStr2 ≠ "" ∨ fmtSeconds ms ≠ 0 then
    (if timeStr2 ≠ "" then timeStr2 ++ pad2 (fmtSeconds ms)
     else toString (fmtSeconds ms) ++ "s")
  else timeStr2

/-- Modelled from the spec's wording for the formatter (section 4.5): hours
omitted when zero, minutes omitted when minutes and hours are both zero,
zero padding only under a higher unit, bare seconds form under one minute,
empty string at zero. -/
def formatDurationSpec (ms : Nat) : String :=
  if fmtHours ms ≠ 0 then
    toString (fmtHours ms) ++ ":" ++ pad2 (fmtMinutes ms) ++ ":" ++ pad2 (fmtSeconds ms)
  else if fmtMinutes ms ≠ 0 then
    toString (fmtMinutes ms) ++ ":" ++ pad2 (fmtSeconds ms)
  else if fmtSeconds ms ≠ 0 then
    toString (fmtSeconds ms) ++ "s"
  else ""

/-- A string obtained by appending a colon is never empty. -/
lemma append_colon_ne (s : String) : s ++ ":" ≠ "" := by
  intro h
  have h2 := congrArg String.length h
  rw [String.length_append] at h2
  have e1 : (":" : String).length = 1 := rfl
  have e2 : ("" : String).length = 0 := rfl
  omega

/-! ## Claim C9: the formatter table and shape -/

set_option maxRecDepth 8192 in
/-- C9: the four table values of the spec hold, and on every millisecond
count `formatTime` produces exactly the spec's shape: `H:MM:SS` when hours
are nonzero, `M:SS` when only minutes are nonzero, `Ss` under one minute,
and the empty string at zero. -/
theorem formatTime_spec_table :
    formatTime 0 = "" ∧
    formatTime 45000 = "45s" ∧
    formatTime 65000 = "1:05" ∧
    formatTime 3661000 = "1:01:01" ∧
    ∀ ms : Nat, formatTime ms = formatDurationSpec ms := by
  refine ⟨by decide, by decide, by decide, by decide, ?_⟩
  intro ms
  by_cases hh : fmtHours ms = 0 <;> by_cases hm : fmtMinutes ms = 0 <;>
    by_cases hs : fmtSeconds ms = 0 <;>
    simp [formatTime, formatDurationSpec, hh, hm, hs, append_colon_ne]

/-! ## Fuzzy overlap merge (src/src/Utils.ts lines 463-522)

The `while` loop of `mergeStrings` maintains a start offset `idxStartMain`
and two cursors `idxMain`, `idxUpdate`.  It is embedded as the scan of a
single offset (`scanOne` / `scanInner`, where the remaining number of
update characters to consume plays the role of
`requiredOverlapLength - idxUpdate` and the two list arguments are the
unread suffixes at `idxMain` and `idxUpdate`) iterated over successive
offsets (`goOffsets`, whose restart branch corresponds to the
`idxStartMain += 1; idxMain = idxStartMain; idxUpdate = 0` branch).
The loop's check order is preserved exactly: the loop condition
`idxMain < mainString.length` is tested first, then the success test
`idxUpdate >= requiredOverlapLength`, and only then are the two current
characters read — reading past the end of `updateString` makes
`.toLowerCase()` throw on `undefined`, which is the `.crash` outcome. -/

/-- Membership in `PUNCTUATION_CHARS` (line 463). -/
def isPunct (c : Char) : Bool :=
  c == '.' || c == '!' || c == '?' || c == ','

/-- Outcome of scanning one start offset of the `mergeStrings` loop. -/
inductive ScanRes where
  | found
  | exhaustedMain
  | crash
  | mismatch
deriving DecidableEq, Repr

/-- One iteration block of the loop at a fixed start offset, for a fixed
remaining-count level: compare the two lowercased cursor characters,
advance both on a match, skip punctuation on the main side (staying at the
same count level), skip punctuation on the update side, or report a hard
mismatch.  `next` continues the scan after one update character has been
consumed. -/
def scanInner (next : List Char → List Char → ScanRes) :
    List Char → List Char → ScanRes
  | [], _ => .exhaustedMain
  | _ :: _, [] => .crash
  | cm :: m', cu :: u' =>
    if cm.toLower = cu.toLower then next m' u'
    else if isPunct cm.toLower then scanInner next m' (cu :: u')
    else if isPunct cu.toLower then next (cm :: m') u'
    else .mismatch

/-- The scan at one start offset: `k` update characters remain to be
consumed; the main suffix is tested for emptiness (the loop condition)
before the success test, so a scan that completes exactly at the end of
`mainString` reports `.exhaustedMain` rather than `.found`. -/
def scanOne : Nat → List Char → List Char → ScanRes
  | _, [], _ => .exhaustedMain
  | 0, _ :: _, _ => .found
  | k + 1, m, u => scanInner (scanOne k) m u

/-- The offset iteration of the `mergeStrings` loop: scan at the current
offset `j`; a hard mismatch restarts at the next offset, any other outcome
ends the whole loop (`some (some j)` = overlap found at `j`, `some none` =
loop left without a find, `none` = exception). -/
def goOffsets (u : List Char) (k : Nat) : List Char → Nat → Option (Option Nat)
  | m, j =>
    match scanOne k m u with
    | .found => some (some j)
    | .exhaustedMain => some none
    | .crash => none
    | .mismatch =>
      match m with
      | [] => some none
      | _ :: m' => goOffsets u k m' (j + 1)

/-- `mergeStrings` (lines 465-522): short strings are replaced outright;
otherwise the first non-mismatching offset decides between splice,
concatenation, and a thrown exception (`none`). -/
def mergeStrings (mainString updateString : List Char)
    (requiredOverlapLength : Nat := 15) : Option (List Char) :=
  if mainString.length < 30 ∧ updateString.length < 30 then some updateString
  else
    match goOffsets updateString requiredOverlapLength mainString 0 with
    | some (some idxStartMain) => some (mainString.take idxStartMain ++ updateString)
    | some none => some (mainString ++ updateString)
    | none => none

/-! Claim-side scan, modelled from the claim's words: a left-to-right scan
(case-insensitive, skipping punctuation independently on either side)
matches the first `k` characters of the update — with no requirement that
any main character remain after the match. -/

/-- Claim-side analogue of `scanInner`. -/
def claimScanInner (next : List Char → List Char → Bool) :
    List Char → List Char → Bool
  | [], _ => false
  | _ :: _, [] => false
  | cm :: m', cu :: u' =>
    if cm.toLower = cu.toLower then next m' u'
    else if isPunct cm.toLower then claimScanInner next m' (cu :: u')
    else if isPunct cu.toLower then next (cm :: m') u'
    else false

/-- Claim-side scan: true as soon as `k` update characters are consumed. -/
def scanMatchClaim : Nat → List Char → List Char → Bool
  | 0, _, _ => true
  | k + 1, m, u => claimScanInner (scanMatchClaim k) m u

/-- The merge function the claim describes, word for word: replace when both
strings are short, otherwise splice at the smallest offset at which the
claim-side scan matches, and concatenate when no offset matches. -/
def mergeSpecClaim (m u : List Char) : List Char :=
  if m.length < 30 ∧ u.length < 30 then u
  else
    match (List.range (m.length + 1)).find? (fun j => scanMatchClaim 15 (m.drop j) u) with
    | some j => m.take j ++ u
    | none => m ++ u

/-- An empty main suffix always reports `.exhaustedMain`. -/
lemma scanOne_nil (k : Nat) (u : List Char) : scanOne k [] u = .exhaustedMain := by
  cases k <;> rfl

/-- If the code's scan finds the overlap, the claim's scan matches. -/
lemma scanInner_imp (next : List Char → List Char → ScanRes)
    (nextC : List Char → List Char → Bool)
    (hn : ∀ a b, next a b = .found → nextC a b = true) :
    ∀ m u, scanInner next m u = .found → claimScanInner nextC m u = true := by
  intro m
  induction m with
  | nil => intro u h; simp [scanInner] at h
  | cons cm m' ih =>
    intro u h
    cases u with
    | nil => simp [scanInner] at h
    | cons cu u' =>
      by_cases heq : cm.toLower = cu.toLower
      · rw [scanInner] at h
        rw [claimScanInner]
        rw [if_pos heq] at h ⊢
        exact hn _ _ h
      · by_cases hpm : isPunct cm.toLower
        · rw [scanInner] at h
          rw [claimScanInner]
          rw [if_neg heq, if_pos hpm] at h ⊢
          exact ih _ h
        · by_cases hpu : isPunct cu.toLower
          · rw [scanInner] at h
            rw [claimScanInner]
            rw [if_neg heq, if_neg hpm, if_pos hpu] at h ⊢
            exact hn _ _ h
          · rw [scanInner, if_neg heq, if_neg hpm, if_neg hpu] at h
            exact absurd h (by simp)

/-- If the claim's scan matches, the code's scan either finds the overlap or
runs exactly to the end of the main string. -/
lemma scanInner_rev (next : List Char → List Char → ScanRes)
    (nextC : List Char → List Char → Bool)
    (hn : ∀ a b, nextC a b = true → next a b = .found ∨ next a b = .exhaustedMain) :
    ∀ m u, claimScanInner nextC m u = true →
      scanInner next m u = .found ∨ scanInner next m u = .exhaustedMain := by
  intro m
  induction m with
  | nil => intro u h; simp [claimScanInner] at h
  | cons cm m' ih =>
    intro u h
    cases u with
    | nil => simp [claimScanInner] at h
    | cons cu u' =>
      by_cases heq : cm.toLower = cu.toLower
      · rw [claimScanInner] at h
        rw [scanInner]
        rw [if_pos heq] at h ⊢
        exact hn _ _ h
      · by_cases hpm : isPunct cm.toLower
        · rw [claimScanInner] at h
          rw [scanInner]
          rw [if_neg heq, if_pos hpm] at h ⊢
          exact ih _ h
        · by_cases hpu : isPunct cu.toLower
          · rw [claimScanInner] at h
            rw [scanInner]
            rw [if_neg heq, if_neg hpm, if_pos hpu] at h ⊢
            exact hn _ _ h
          · rw [claimScanInner, if_neg heq, if_neg hpm, if_neg hpu] at h
            exact absurd h (by simp)

/-- A `.found` outcome of the code's scan implies a claim-side match. -/
lemma found_imp_claim :
    ∀ (k : Nat) (m u : List Char),
      scanOne k m u = .found → scanMatchClaim k m u = true := by
  intro k
  induction k with
  | zero => intro m u _; rfl
  | succ k ih =>
    intro m u h
    cases m with
    | nil => rw [scanOne_nil] at h; exact absurd h (by simp)
    | cons cm m' =>
      exact scanInner_imp (scanOne k) (scanMatchClaim k) ih (cm :: m') u h

/-- A claim-side match implies the code's scan finds the overlap or runs
exactly to the end of the main string — the only point of disagreement
between the two scans. -/
lemma claim_imp_found_or_exhaust :
    ∀ (k : Nat) (m u : List Char),
      scanMatchClaim k m u = true →
        scanOne k m u = .found ∨ scanOne k m u = .exhaustedMain := by
  intro k
  induction k with
  | zero =>
    intro m u _
    cases m with
    | nil => exact Or.inr (scanOne_nil 0 u)
    | cons cm m' => exact Or.inl rfl
  | succ k ih =>
    intro m u h
    cases m with
    | nil => exact Or.inr (scanOne_nil (k + 1) u)
    | cons cm m' =>
      exact scanInner_rev (scanOne k) (scanMatchClaim k) ih (cm :: m') u h

/-- Skipping a block of hard-mismatching offsets. -/
lemma goOffsets_skip (u : List Char) (k : Nat) :
    ∀ (j : Nat) (m : List Char) (j0 : Nat),
      (∀ i, i < j → scanOne k (m.drop i) u = .mismatch) → j ≤ m.length →
      goOffsets u k m j0 = goOffsets u k (m.drop j) (j0 + j) := by
  intro j
  induction j with
  | zero => intro m j0 _ _; simp
  | succ j ih =>
    intro m j0 hmis hle
    cases m with
    | nil => simp at hle
    | cons c m' =>
      have h0 : scanOne k (c :: m') u = .mismatch := by simpa using hmis 0 (by omega)
      have step : goOffsets u k (c :: m') j0 = goOffsets u k m' (j0 + 1) := by
        rw [goOffsets, h0]
      rw [step]
      have hrest : ∀ i, i < j → scanOne k (m'.drop i) u = .mismatch := by
        intro i hi
        simpa using hmis (i + 1) (by omega)
      have hle' : j ≤ m'.length := by
        simp at hle
        omega
      rw [ih m' (j0 + 1) hrest hle']
      have harith : j0 + 1 + j = j0 + (j + 1) := by omega
      rw [List.drop_succ_cons, harith]

/-- Unfolding `goOffsets` at an offset whose scan finds the overlap. -/
lemma goOffsets_found (u : List Char) (k : Nat) (m : List Char) (j : Nat)
    (hf : scanOne k m u = .found) : goOffsets u k m j = some (some j) := by
  cases m with
  | nil => rw [scanOne_nil] at hf; exact absurd hf (by simp)
  | cons c m' => rw [goOffsets, hf]

/-- Unfolding `goOffsets` at an offset whose scan runs off the main end. -/
lemma goOffsets_exhausted (u : List Char) (k : Nat) (m : List Char) (j : Nat)
    (hf : scanOne k m u = .exhaustedMain) : goOffsets u k m j = some none := by
  cases m with
  | nil => rw [goOffsets, scanOne_nil]
  | cons c m' => rw [goOffsets, hf]

/-- Unfolding `goOffsets` at an offset whose scan runs off the update end. -/
lemma goOffsets_crash (u : List Char) (k : Nat) (m : List Char) (j : Nat)
    (hf : scanOne k m u = .crash) : goOffsets u k m j = none := by
  cases m with
  | nil => rw [scanOne_nil] at hf; exact absurd hf (by simp)
  | cons c m' => rw [goOffsets, hf]

/-! ## Claim C4: the merge function -/

/-- Concrete main string for the C4 counterexample: 15 letters `b` followed
by 15 letters `a` (30 characters, so the short-string branch is skipped). -/
def cexMain : List Char := List.replicate 15 'b' ++ List.replicate 15 'a'

/-- Concrete update for the C4 counterexample: its first 15 characters are
the last 15 characters of `cexMain`. -/
def cexUpdate : List Char := List.replicate 15 'a' ++ ['t', 'o', 'd']

/-- C4 counterexample: the first 15 characters of the update match `cexMain`
at offset 15, so the claim demands the splice `take 15 ++ update`; but that
match consumes the last character of `cexMain`, the loop condition
`idxMain < mainString.length` fails before the success test runs, and the
code concatenates instead. -/
theorem mergeStrings_claim_false :
    mergeStrings cexMain cexUpdate = some (cexMain ++ cexUpdate) ∧
    mergeSpecClaim cexMain cexUpdate = cexMain.take 15 ++ cexUpdate ∧
    mergeStrings cexMain cexUpdate ≠ some (mergeSpecClaim cexMain cexUpdate) := by
  refine ⟨by decide, by decide, by decide⟩

/-- C4 (amended): short strings are replaced outright; otherwise, writing
`scanOne` for the code's scan of a single start offset, the first offset
that does not hard-mismatch decides the result: a found overlap (a
claim-style match with at least one main character left after it) splices
at that offset; a scan that runs off the end of the main string yields
plain concatenation even if the claim-style scan matched there; a scan
that runs off the end of the update (possible only when the update is
shorter than the required overlap of 15) throws.  A claim-style match
differs from a found overlap only in the end-of-main case. -/
theorem mergeStrings_characterization (m u : List Char) :
    (m.length < 30 ∧ u.length < 30 → mergeStrings m u = some u) ∧
    (¬(m.length < 30 ∧ u.length < 30) →
      (∀ j, (∀ i, i < j → scanOne 15 (m.drop i) u = .mismatch) →
        (scanOne 15 (m.drop j) u = .found →
          mergeStrings m u = some (m.take j ++ u) ∧
          scanMatchClaim 15 (m.drop j) u = true) ∧
        (scanOne 15 (m.drop j) u = .exhaustedMain →
          mergeStrings m u = some (m ++ u)) ∧
        (scanOne 15 (m.drop j) u = .crash → mergeStrings m u = none)) ∧
      (∀ j, scanMatchClaim 15 (m.drop j) u = true →
        scanOne 15 (m.drop j) u = .found ∨
        scanOne 15 (m.drop j) u = .exhaustedMain)) := by
  constructor
  · intro hshort
    simp [mergeStrings, hshort]
  · intro hlong
    constructor
    · intro j hmis
      have hj : j ≤ m.length := by
        by_contra hgt
        push_neg at hgt
        have hml := hmis m.length hgt
        rw [List.drop_length, scanOne_nil] at hml
        exact absurd hml (by simp)
      have hskip := goOffsets_skip u 15 j m 0 hmis hj
      refine ⟨?_, ?_, ?_⟩
      · intro hf
        refine ⟨?_, found_imp_claim _ _ _ hf⟩
        simp only [mergeStrings, if_neg hlong]
        rw [hskip, goOffsets_found u 15 _ _ hf]
        simp
      · intro hf
        simp only [mergeStrings, if_neg hlong]
        rw [hskip, goOffsets_exhausted u 15 _ _ hf]
      · intro hf
        simp only [mergeStrings, if_neg hlong]
        rw [hskip, goOffsets_crash u 15 _ _ hf]
    · intro j hclaim
      exact claim_imp_found_or_exhaust _ _ _ hclaim

/-- Witness for `mergeStrings_characterization`: the short-replace branch on
a 2/4-character pair, and the splice branch at offset 0 on a 30/16-character
pair. -/
theorem mergeStrings_characterization_witness :
    mergeStrings (List.replicate 2 'h') (List.replicate 4 'o') =
      some (List.replicate 4 'o') ∧
    mergeStrings (List.replicate 30 'a') (List.replicate 16 'a') =
      some ((List.replicate 30 'a').take 0 ++ List.replicate 16 'a') :=
  ⟨(mergeStrings_characterization _ _).1 (by decide),
   ((((mergeStrings_characterization (List.replicate 30 'a')
        (List.replicate 16 'a')).2 (by decide)).1 0
      (fun i hi => absurd hi (Nat.not_lt_zero i))).1 (by decide)).1⟩

/-! ## Caption reconciliation engine (src/src/Utils.ts lines 455-735)

The numeric constants of the source are inlined at their use sites:
`INTERJECTIONS_TO_SEQUENCE_MIN` ratio 5, the short-sequence bound 3000 ms,
and the per-word base duration 100 ms. -/

/-- `wordsInString` (lines 459-461): one more than the number of spaces. -/
def wordsInString (str : List Char) : Int :=
  (str.countP (fun c => c == ' ')) + 1

/-- One caption turn (`ClosedCaptionEvent`, lines 524-543). -/
structure CCEvent where
  when : Int
  whenSpokeLast : Int
  who : String
  what : List Char
  howLong : Int
  interjection : Bool
  continuation : Bool
deriving DecidableEq, Repr

/-- The `ClosedCaptionEvent` constructor (lines 532-543): the initial
duration is guessed from the word count and the start is backdated by it. -/
def mkCCEvent (whenSeen : Int) (who : String) (what : List Char) : CCEvent :=
  let howLong := 100 * wordsInString what
  { when := whenSeen - howLong
    whenSpokeLast := whenSeen
    who := who
    what := what
    howLong := howLong
    interjection := false
    continuation := false }

/-- `ClosedCaptionEvent.completeFromUpdate` (lines 554-565): when the text
length changed and this is not a same-timestamp batch update, extend the
duration by the time since the last update and move `whenSpokeLast` to the
update's (backdated) `when`; then merge the texts.  A `none` result models
the exception `mergeStrings` can throw. -/
def completeFromUpdate (ev partialUpdate : CCEvent) (sameTime : Bool) :
    Option CCEvent :=
  let updateIsNotTrivial := ev.what.length ≠ partialUpdate.what.length
  let delaySinceLastEvent := partialUpdate.whenSpokeLast - ev.whenSpokeLast
  let t :=
    if updateIsNotTrivial ∧ sameTime = false then
      { ev with
        howLong := ev.howLong + delaySinceLastEvent
        whenSpokeLast := partialUpdate.when }
    else ev
  (mergeStrings ev.what partialUpdate.what).map (fun w => { t with what := w })

/-- The engine state: the finalized log `events` and the in-flight
`eventsBuffer` (lines 570-571). -/
structure CCState where
  events : List CCEvent
  eventsBuffer : List CCEvent
deriving DecidableEq, Repr

/-- The backward scan of `_addEvent` (lines 616-673): starting at index
`i` and walking down, stop at the first turn by `currentSpeaker`
(returning its index and value), stop empty at a different-speaker turn
longer than 3000 ms, and stop empty when the scan walks past index 0. -/
def findPrior (evs : List CCEvent) (currentSpeaker : String) :
    Nat → Option (Nat × CCEvent)
  | 0 =>
    match evs.get? 0 with
    | none => none
    | some turn => if turn.who = currentSpeaker then some (0, turn) else none
  | i + 1 =>
    match evs.get? (i + 1) with
    | none => none
    | some turn =>
      if turn.who = currentSpeaker then some (i + 1, turn)
      else if turn.howLong > 3000 then none
      else findPrior evs currentSpeaker i

/-- The marking pass of `_addEvent` (lines 630-637): every index strictly
between `priorIdx` and `lastIdx` becomes an interjection, index `lastIdx`
(the current turn) becomes a continuation. -/
def applyMarks (priorIdx lastIdx : Nat) : Nat → List CCEvent → List CCEvent
  | _, [] => []
  | j, ev :: rest =>
    (if priorIdx < j ∧ j < lastIdx then { ev with interjection := true }
     else if j = lastIdx then { ev with continuation := true }
     else ev) :: applyMarks priorIdx lastIdx (j + 1) rest

/-- `ClosedCaptions._addEvent` (lines 604-675): push the event, then, with
at least three turns, scan backward from index `turnCount - 2`; when a
same-speaker prior turn is found with at least one turn in between and
`turn.howLong > (currentTurn.when - turn.whenSpokeLast) * 5`, mark the
intervening turns and the current turn. -/
def addEvent (st : CCState) (event : CCEvent) : CCState :=
  let evs := st.events ++ [event]
  let turnCount := evs.length
  if turnCount ≥ 3 then
    match findPrior evs event.who (turnCount - 2) with
    | none => { st with events := evs }
    | some (i, turn) =>
      if i < turnCount - 2 ∧ turn.howLong > (event.when - turn.whenSpokeLast) * 5 then
        { st with events := applyMarks i (turnCount - 1) 0 evs }
      else { st with events := evs }
  else { st with events := evs }

/-- `ClosedCaptions._finalizeOldestBufferedEvent` (lines 679-682): shift the
oldest buffered event and add it to the finalized list.  The source only
calls it with a non-empty buffer; an empty buffer is left unchanged. -/
def finalizeOldest (st : CCState) : CCState :=
  match st.eventsBuffer with
  | [] => st
  | b :: rest => addEvent { st with eventsBuffer := rest } b

/-- `finalizeOldest` iterated `k` times: each `while` round of the shrink
and realign loops finalizes exactly one buffered event. -/
def finalizeN : Nat → CCState → CCState
  | 0, st => st
  | k + 1, st => finalizeN k (finalizeOldest st)

/-- The shrink loop (lines 706-708): finalize while the buffer is longer
than the snapshot, i.e. exactly `buffer.length - n` times. -/
def shrinkToLen (st : CCState) (n : Nat) : CCState :=
  finalizeN (st.eventsBuffer.length - n) st

/-- The realign loop (lines 712-718), with the buffer length as an upper
bound on the number of rounds: finalize while the buffer is non-empty and
its front speaker differs from the snapshot's front speaker `w`. -/
def realignN : Nat → String → CCState → CCState
  | 0, _, st => st
  | fuel + 1, w, st =>
    match st.eventsBuffer with
    | [] => st
    | b :: _ => if b.who ≠ w then realignN fuel w (finalizeOldest st) else st

/-- The merge loop (lines 721-734): position `idx` of the buffer is merged
with position `idx` of the snapshot (`sameTime` is false exactly at the
last snapshot index), positions beyond the buffer are appended as new
events.  `none` models an exception escaping from `completeFromUpdate`. -/
def mergeBufferGo (lastIdx : Nat) : Nat → List CCEvent → List CCEvent → Option (List CCEvent)
  | _, _, [] => some []
  | idx, [], ne :: nes =>
    (mergeBufferGo lastIdx (idx + 1) [] nes).map (fun rest => ne :: rest)
  | idx, b :: bs, ne :: nes => do
    let b' ← completeFromUpdate b ne (decide (idx ≠ lastIdx))
    let rest ← mergeBufferGo lastIdx (idx + 1) bs nes
    pure (b' :: rest)

/-- The snapshot lines turned into fresh `ClosedCaptionEvent`s
(lines 691-702); the DOM filtering of malformed lines happens before this
point, so the snapshot is the list of well-formed `(speaker, text)` pairs. -/
def ccNewEvents (snapshot : List (String × List Char)) (now : Int) : List CCEvent :=
  snapshot.map (fun p => mkCCEvent now p.1 p.2)

/-- The shrink and realign phases of `mergeLatestCC` (lines 704-718). -/
def ccShrinkRealign (st : CCState) (newEvents : List CCEvent) : CCState :=
  let st1 := shrinkToLen st newEvents.length
  match newEvents with
  | [] => st1
  | ne :: _ => realignN st1.eventsBuffer.length ne.who st1

/-- `ClosedCaptions.mergeLatestCC` (lines 684-735): build the snapshot
events, shrink, realign, then merge when the snapshot is at least as long
as the remaining buffer (after shrinking it always is). -/
def mergeLatestCC (st : CCState) (snapshot : List (String × List Char))
    (now : Int) : Option CCState :=
  let newEvents := ccNewEvents snapshot now
  let st2 := ccShrinkRealign st newEvents
  if newEvents.length ≥ st2.eventsBuffer.length then
    (mergeBufferGo (newEvents.length - 1) 0 st2.eventsBuffer newEvents).map
      (fun buf => { st2 with eventsBuffer := buf })
  else some st2

/-! ## Claim C8: timing of a per-turn merge -/

/-- Concrete buffered turn for the C8 counterexample. -/
def c8Buffered : CCEvent :=
  { when := 0
    whenSpokeLast := 1000
    who := "A"
    what := ['a']
    howLong := 500
    interjection := false
    continuation := false }

/-- C8 counterexample: a non-trivial, non-batch update arriving at time
2000 with text of 3 characters (estimated duration 100 ms).  The duration
is extended by the elapsed 1000 ms as claimed, but `whenSpokeLast` is
advanced to the update's backdated `when` field 1900, not to the update
time 2000 the claim states. -/
theorem completeFromUpdate_claim_false :
    c8Buffered.what.length ≠ (mkCCEvent 2000 "A" ['a', 'b', 'c']).what.length ∧
    completeFromUpdate c8Buffered (mkCCEvent 2000 "A" ['a', 'b', 'c']) false =
      some { when := 0
             whenSpokeLast := 1900
             who := "A"
             what := ['a', 'b', 'c']
             howLong := 1500
             interjection := false
             continuation := false } ∧
    (1900 : Int) ≠ 2000 := by
  decide

/-- C8 (amended): when the merge returns normally, a length-changing
non-batch update extends the duration by exactly the elapsed time since the
turn's last update and advances `whenSpokeLast` to the update's backdated
start (the update time minus the estimated duration of its text), while a
same-length update changes neither field. -/
theorem completeFromUpdate_timing (ev : CCEvent) (now : Int) (w2 : String)
    (text : List Char) (sameTime : Bool) (ev' : CCEvent)
    (h : completeFromUpdate ev (mkCCEvent now w2 text) sameTime = some ev') :
    (ev.what.length ≠ text.length ∧ sameTime = false →
      ev'.howLong = ev.howLong + (now - ev.whenSpokeLast) ∧
      ev'.whenSpokeLast = now - 100 * wordsInString text) ∧
    (ev.what.length = text.length →
      ev'.howLong = ev.howLong ∧ ev'.whenSpokeLast = ev.whenSpokeLast) := by
  simp only [completeFromUpdate, mkCCEvent] at h
  cases hm : mergeStrings ev.what text with
  | none => rw [hm] at h; simp at h
  | some w =>
    rw [hm] at h
    constructor
    · intro hcond
      obtain ⟨hlen, hst⟩ := hcond
      subst hst
      rw [if_pos ⟨hlen, rfl⟩] at h
      have h2 := Option.some.inj h
      rw [← h2]
      exact ⟨rfl, rfl⟩
    · intro hlen
      have hneg : ¬(ev.what.length ≠ text.length ∧ sameTime = false) := by
        intro hc
        exact hc.1 hlen
      rw [if_neg hneg] at h
      have h2 := Option.some.inj h
      rw [← h2]
      exact ⟨rfl, rfl⟩

/-- The merged turn produced in the C8 scenario. -/
def c8Merged : CCEvent :=
  { when := 0
    whenSpokeLast := 1900
    who := "A"
    what := ['a', 'b', 'c']
    howLong := 1500
    interjection := false
    continuation := false }

/-- Witness for `completeFromUpdate_timing` at the concrete C8 scenario. -/
theorem completeFromUpdate_timing_witness :
    (c8Buffered.what.length ≠ (['a', 'b', 'c'] : List Char).length ∧ false = false →
      c8Merged.howLong = c8Buffered.howLong + (2000 - c8Buffered.whenSpokeLast) ∧
      c8Merged.whenSpokeLast = 2000 - 100 * wordsInString ['a', 'b', 'c']) ∧
    (c8Buffered.what.length = (['a', 'b', 'c'] : List Char).length →
      c8Merged.howLong = c8Buffered.howLong ∧
      c8Merged.whenSpokeLast = c8Buffered.whenSpokeLast) :=
  completeFromUpdate_timing c8Buffered 2000 "A" ['a', 'b', 'c'] false c8Merged
    (by decide)

/-! ## Claim C6: interjection and continuation classification -/

/-- The backward scan finds the nearest same-speaker turn when every turn
above it is by another speaker and at most 3000 ms long. -/
lemma findPrior_finds (evs : List CCEvent) (w : String) (i : Nat) (evp : CCEvent)
    (hi : evs.get? i = some evp) (hw : evp.who = w) :
    ∀ s, i ≤ s → s < evs.length →
      (∀ j evj, i < j → j ≤ s → evs.get? j = some evj →
        evj.who ≠ w ∧ evj.howLong ≤ 3000) →
      findPrior evs w s = some (i, evp) := by
  intro s
  induction s with
  | zero =>
    intro his _ _
    have hi0 : i = 0 := by omega
    subst hi0
    rw [findPrior, hi]
    simp [hw]
  | succ s ih =>
    intro his hslen hmid
    rcases Nat.lt_or_ge i (s + 1) with hlt | hge
    · cases hj : evs.get? (s + 1) with
      | none =>
        rw [List.get?_eq_none] at hj
        omega
      | some evj =>
        have hcond := hmid (s + 1) evj hlt (Nat.le_refl _) hj
        have hnl : ¬(evj.howLong > 3000) := by omega
        rw [findPrior, hj]
        simp only [hcond.1, hnl, if_false, if_neg hcond.1, if_neg hnl]
        exact ih (by omega) (by omega)
          (fun j evj2 hj1 hj2 hj3 => hmid j evj2 hj1 (by omega) hj3)
    · have hieq : i = s + 1 := by omega
      subst hieq
      rw [findPrior, hi]
      simp [hw]

/-- The backward scan classifies nothing when it meets a different-speaker
turn longer than 3000 ms before any same-speaker turn. -/
lemma findPrior_blocked (evs : List CCEvent) (w : String) (jb : Nat) (evb : CCEvent)
    (hb : evs.get? jb = some evb) (hwho : evb.who ≠ w) (hlong : evb.howLong > 3000) :
    ∀ s, jb ≤ s → s < evs.length →
      (∀ j evj, jb < j → j ≤ s → evs.get? j = some evj → evj.who ≠ w) →
      findPrior evs w s = none := by
  intro s
  induction s with
  | zero =>
    intro hjs _ _
    have hj0 : jb = 0 := by omega
    subst hj0
    rw [findPrior, hb]
    simp [hwho]
  | succ s ih =>
    intro hjs hslen hmid
    rcases Nat.lt_or_ge jb (s + 1) with hlt | hge
    · cases hj : evs.get? (s + 1) with
      | none =>
        rw [List.get?_eq_none] at hj
        omega
      | some evj =>
        have hwj := hmid (s + 1) evj hlt (Nat.le_refl _) hj
        by_cases hl : evj.howLong > 3000
        · rw [findPrior, hj]
          simp [hwj, hl]
        · rw [findPrior, hj]
          simp only [if_neg hwj, if_neg hl]
          exact ih (by omega) (by omega)
            (fun j evj2 hj1 hj2 hj3 => hmid j evj2 hj1 (by omega) hj3)
    · have hjeq : jb = s + 1 := by omega
      subst hjeq
      rw [findPrior, hb]
      simp [hwho, hlong]

/-- Entry `j` of the marking pass, relative to the running index `j0`. -/
lemma applyMarks_get? (i l : Nat) :
    ∀ (evs : List CCEvent) (j0 j : Nat),
      (applyMarks i l j0 evs).get? j =
        (evs.get? j).map (fun ev =>
          if i < j0 + j ∧ j0 + j < l then { ev with interjection := true }
          else if j0 + j = l then { ev with continuation := true }
          else ev) := by
  intro evs
  induction evs with
  | nil => intro j0 j; simp [applyMarks]
  | cons ev rest ih =>
    intro j0 j
    cases j with
    | zero => simp [applyMarks]
    | succ j =>
      rw [applyMarks]
      have := ih (j0 + 1) j
      simp only [List.get?_cons_succ]
      rw [this]
      have harith : j0 + 1 + j = j0 + (j + 1) := by omega
      rw [harith]

/-- A 500 ms turn by speaker B (C6 counterexample, finalized first). -/
def c6B : CCEvent :=
  { when := 0
    whenSpokeLast := 500
    who := "B"
    what := ['x']
    howLong := 500
    interjection := false
    continuation := false }

/-- An 8000 ms turn by speaker A immediately before the current turn
(C6 counterexample). -/
def c6A1 : CCEvent :=
  { when := 600
    whenSpokeLast := 8600
    who := "A"
    what := ['y']
    howLong := 8000
    interjection := false
    continuation := false }

/-- The current turn by speaker A for the C6 scenarios. -/
def c6A2mk : CCEvent := mkCCEvent 9000 "A" ['z']

/-- C6 counterexample: the scan finds the same-speaker prior turn at the
immediately preceding index and the duration condition
`8000 > (8900 - 8600) * 5` holds, yet the code marks nothing — the marking
additionally requires at least one intervening turn
(`interjectionCandidateTurnIndex < turnCount - 2`), which the claim omits. -/
theorem addEvent_claim_false :
    c6A1.who = c6A2mk.who ∧
    c6A1.howLong > (c6A2mk.when - c6A1.whenSpokeLast) * 5 ∧
    (addEvent { events := [c6B, c6A1], eventsBuffer := [] } c6A2mk).events =
      [c6B, c6A1, c6A2mk] ∧
    (((addEvent { events := [c6B, c6A1], eventsBuffer := [] } c6A2mk).events.get? 2).map
      (fun x => x.continuation)) = some false := by
  decide

/-- C6 (amended): part one — the backward scan stops and classifies nothing
as soon as it meets a different-speaker turn longer than 3000 ms before any
same-speaker turn; part two — when the nearest same-speaker prior turn is
found through short different-speaker turns, the duration condition
`priorTurn.howLong > (currentTurn.when - priorTurn.whenSpokeLast) * 5`
holds, AND at least one turn lies strictly between the prior turn and the
current one (the condition the claim omits), then every strictly
intervening turn is marked as an interjection, the current turn as a
continuation, and turns up to the prior one are untouched. -/
theorem addEvent_classification (st : CCState) (e : CCEvent) :
    (∀ jb evb, st.events.get? jb = some evb → evb.who ≠ e.who →
      evb.howLong > 3000 →
      (∀ j evj, jb < j → j < st.events.length → st.events.get? j = some evj →
        evj.who ≠ e.who) →
      addEvent st e = { st with events := st.events ++ [e] }) ∧
    (∀ i evp, st.events.get? i = some evp → evp.who = e.who →
      (∀ j evj, i < j → j < st.events.length → st.events.get? j = some evj →
        evj.who ≠ e.who ∧ evj.howLong ≤ 3000) →
      i < st.events.length - 1 →
      evp.howLong > (e.when - evp.whenSpokeLast) * 5 →
      (addEvent st e).events =
        applyMarks i st.events.length 0 (st.events ++ [e]) ∧
      ((addEvent st e).events.get? st.events.length).map
        (fun x => x.continuation) = some true ∧
      (∀ j evj, i < j → j < st.events.length → st.events.get? j = some evj →
        (addEvent st e).events.get? j = some { evj with interjection := true }) ∧
      (∀ j, j ≤ i → (addEvent st e).events.get? j = st.events.get? j)) := by
  constructor
  · intro jb evb hb hwho hlong hmid
    have hjb : jb < st.events.length := by
      by_contra hge
      push_neg at hge
      rw [List.get?_eq_none.mpr hge] at hb
      exact absurd hb (by simp)
    by_cases h3 : (st.events ++ [e]).length ≥ 3
    · have hlen' : (st.events ++ [e]).length = st.events.length + 1 := by
        simp
      have hfp : findPrior (st.events ++ [e]) e.who
          ((st.events ++ [e]).length - 2) = none := by
        apply findPrior_blocked (st.events ++ [e]) e.who jb evb
        · rw [List.get?_append hjb]
          exact hb
        · exact hwho
        · exact hlong
        · omega
        · omega
        · intro j evj hj1 hj2 hj3
          have hjm : j < st.events.length := by omega
          rw [List.get?_append hjm] at hj3
          exact hmid j evj hj1 hjm hj3
      simp only [addEvent, if_pos h3, hfp]
    · simp only [addEvent, if_neg h3]
  · intro i evp hi hw hmid him hratio
    have hlen' : (st.events ++ [e]).length = st.events.length + 1 := by
      simp
    have him2 : i < st.events.length := by omega
    have hm2 : 2 ≤ st.events.length := by omega
    have h3 : (st.events ++ [e]).length ≥ 3 := by omega
    have hfp : findPrior (st.events ++ [e]) e.who
        ((st.events ++ [e]).length - 2) = some (i, evp) := by
      apply findPrior_finds (st.events ++ [e]) e.who i evp
      · rw [List.get?_append him2]
        exact hi
      · exact hw
      · omega
      · omega
      · intro j evj hj1 hj2 hj3
        have hjm : j < st.events.length := by omega
        rw [List.get?_append hjm] at hj3
        exact hmid j evj hj1 hjm hj3
    have hcond : i < (st.events ++ [e]).length - 2 ∧
        evp.howLong > (e.when - evp.whenSpokeLast) * 5 := by
      exact ⟨by omega, hratio⟩
    have hmain : (addEvent st e).events =
        applyMarks i st.events.length 0 (st.events ++ [e]) := by
      simp only [addEvent, if_pos h3, hfp, if_pos hcond]
      have : (st.events ++ [e]).length - 1 = st.events.length := by
        simp
      rw [this]
    refine ⟨hmain, ?_, ?_, ?_⟩
    · rw [hmain, applyMarks_get? i st.events.length (st.events ++ [e]) 0
        st.events.length]
      rw [List.get?_concat_length]
      have hc1 : ¬(i < st.events.length ∧
          st.events.length < st.events.length) := by omega
      simp [hc1]
    · intro j evj hj1 hj2 hj3
      rw [hmain, applyMarks_get? i st.events.length (st.events ++ [e]) 0 j]
      rw [List.get?_append hj2, hj3]
      have hc1 : i < j ∧ j < st.events.length := by omega
      simp only [Option.map_some', Nat.zero_add, if_pos hc1]
    · intro j hj
      rw [hmain, applyMarks_get? i st.events.length (st.events ++ [e]) 0 j]
      have hjm : j < st.events.length := by omega
      rw [List.get?_append hjm]
      have hc1 : ¬(i < j ∧ j < st.events.length) := by omega
      have hc2 : ¬(j = st.events.length) := by omega
      simp [hc1, hc2]

/-- An 8000 ms turn by speaker A, two turns before the current one
(C6 witness). -/
def c6Along : CCEvent :=
  { when := 0
    whenSpokeLast := 8000
    who := "A"
    what := ['y']
    howLong := 8000
    interjection := false
    continuation := false }

/-- A 500 ms interjection by speaker B (C6 witness). -/
def c6Bshort : CCEvent :=
  { when := 8000
    whenSpokeLast := 8500
    who := "B"
    what := ['x']
    howLong := 500
    interjection := false
    continuation := false }

/-- The engine state for the C6 witness: A spoke long, B interjected. -/
def c6State : CCState :=
  { events := [c6Along, c6Bshort], eventsBuffer := [] }

/-- Witness for `addEvent_classification`: A (8000 ms), B (500 ms), then A
again — B's turn is marked as an interjection and A's resumed turn as a
continuation. -/
theorem addEvent_classification_witness :
    (addEvent c6State c6A2mk).events =
      applyMarks 0 c6State.events.length 0 (c6State.events ++ [c6A2mk]) ∧
    ((addEvent c6State c6A2mk).events.get? c6State.events.length).map
      (fun x => x.continuation) = some true ∧
    (∀ j evj, 0 < j → j < c6State.events.length →
      c6State.events.get? j = some evj →
      (addEvent c6State c6A2mk).events.get? j =
        some { evj with interjection := true }) ∧
    (∀ j, j ≤ 0 → (addEvent c6State c6A2mk).events.get? j =
      c6State.events.get? j) :=
  (addEvent_classification c6State c6A2mk).2 0 c6Along (by decide) (by decide)
    (fun j evj h1 h2 h3 => by
      have hlen : c6State.events.length = 2 := by decide
      have hj1 : j = 1 := by omega
      subst hj1
      rw [show c6State.events = [c6Along, c6Bshort] from rfl] at h3
      simp at h3
      subst h3
      exact ⟨by decide, by decide⟩)
    (by decide) (by decide)

/-! ## Claims C7 and C5: container bookkeeping of the reconciliation -/

/-- The classification-independent core of a turn: everything except the
`interjection` and `continuation` flags (the only fields the finalized log
scan may later change). -/
def ccCore (e : CCEvent) : Int × Int × String × List Char × Int :=
  (e.when, e.whenSpokeLast, e.who, e.what, e.howLong)

/-- The marking pass changes classification flags only. -/
lemma applyMarks_core (i l : Nat) :
    ∀ (evs : List CCEvent) (j0 : Nat),
      (applyMarks i l j0 evs).map ccCore = evs.map ccCore := by
  intro evs
  induction evs with
  | nil => intro j0; rfl
  | cons ev rest ih =>
    intro j0
    rw [applyMarks]
    simp only [List.map_cons, ih (j0 + 1)]
    split_ifs <;> rfl

/-- `_addEvent` appends the event to the finalized log up to classification
flags and leaves the buffer alone. -/
lemma addEvent_core (st : CCState) (e : CCEvent) :
    (addEvent st e).events.map ccCore = (st.events ++ [e]).map ccCore ∧
    (addEvent st e).eventsBuffer = st.eventsBuffer := by
  by_cases h3 : (st.events ++ [e]).length ≥ 3
  · simp only [addEvent, if_pos h3]
    cases hfp : findPrior (st.events ++ [e]) e.who ((st.events ++ [e]).length - 2) with
    | none => exact ⟨rfl, rfl⟩
    | some p =>
      obtain ⟨i, turn⟩ := p
      by_cases hc : i < (st.events ++ [e]).length - 2 ∧
          turn.howLong > (e.when - turn.whenSpokeLast) * 5
      · simp only [hfp, if_pos hc]
        exact ⟨applyMarks_core _ _ _ _, trivial⟩
      · simp only [hfp, if_neg hc]
        exact ⟨trivial, trivial⟩
  · simp only [addEvent, if_neg h3]
    exact ⟨trivial, trivial⟩

/-- Finalizing the oldest buffered event moves it (up to flags) to the end
of the log and pops it from the buffer. -/
lemma finalizeOldest_decomp (st : CCState) (b : CCEvent) (rest : List CCEvent)
    (hbuf : st.eventsBuffer = b :: rest) :
    (finalizeOldest st).events.map ccCore = (st.events ++ [b]).map ccCore ∧
    (finalizeOldest st).eventsBuffer = rest := by
  simp only [finalizeOldest, hbuf]
  exact addEvent_core { st with eventsBuffer := rest } b

/-- `k` finalization rounds move the first `k` buffered events to the log. -/
lemma finalizeN_decomp :
    ∀ (k : Nat) (st : CCState), k ≤ st.eventsBuffer.length →
      (finalizeN k st).events.map ccCore =
        (st.events ++ st.eventsBuffer.take k).map ccCore ∧
      (finalizeN k st).eventsBuffer = st.eventsBuffer.drop k := by
  intro k
  induction k with
  | zero => intro st _; simp [finalizeN]
  | succ k ih =>
    intro st hk
    cases hbuf : st.eventsBuffer with
    | nil => rw [hbuf] at hk; simp at hk
    | cons b rest =>
      rw [finalizeN]
      have hfo := finalizeOldest_decomp st b rest hbuf
      have hkr : k ≤ (finalizeOldest st).eventsBuffer.length := by
        rw [hfo.2]
        rw [hbuf] at hk
        simp at hk
        omega
      have ihh := ih (finalizeOldest st) hkr
      constructor
      · rw [ihh.1, hfo.2, List.take_succ_cons]
        simp only [List.map_append]
        rw [hfo.1]
        simp [List.map_append]
      · rw [ihh.2, hfo.2, List.drop_succ_cons]

/-- The realign loop moves some prefix of the buffer to the log. -/
lemma realignN_decomp :
    ∀ (fuel : Nat) (w : String) (st : CCState),
      ∃ d, d ≤ st.eventsBuffer.length ∧
        (realignN fuel w st).events.map ccCore =
          (st.events ++ st.eventsBuffer.take d).map ccCore ∧
        (realignN fuel w st).eventsBuffer = st.eventsBuffer.drop d := by
  intro fuel
  induction fuel with
  | zero => intro w st; exact ⟨0, by simp [realignN]⟩
  | succ fuel ih =>
    intro w st
    cases hbuf : st.eventsBuffer with
    | nil =>
      have hstep : realignN (fuel + 1) w st = st := by
        rw [realignN, hbuf]
      refine ⟨0, by omega, ?_, ?_⟩
      · rw [hstep]
        simp
      · rw [hstep, hbuf]
        simp
    | cons b rest =>
      by_cases hwho : b.who ≠ w
      · obtain ⟨d, hd, h1, h2⟩ := ih w (finalizeOldest st)
        have hfo := finalizeOldest_decomp st b rest hbuf
        have hstep : realignN (fuel + 1) w st = realignN fuel w (finalizeOldest st) := by
          rw [realignN, hbuf]
          simp [hwho]
        refine ⟨d + 1, ?_, ?_, ?_⟩
        · rw [hfo.2] at hd
          simp
          omega
        · rw [hstep, h1, hfo.2, List.take_succ_cons]
          simp only [List.map_append]
          rw [hfo.1]
          simp [List.map_append]
        · rw [hstep, h2, hfo.2, List.drop_succ_cons]
      · push_neg at hwho
        have hstep : realignN (fuel + 1) w st = st := by
          rw [realignN, hbuf]
          simp [hwho]
        refine ⟨0, by omega, ?_, ?_⟩
        · rw [hstep]
          simp
        · rw [hstep, hbuf]
          simp

/-- After realigning with fuel covering the whole buffer, the buffer is
empty or fronted by a turn of the snapshot's first speaker. -/
lemma realignN_post :
    ∀ (fuel : Nat) (w : String) (st : CCState), st.eventsBuffer.length ≤ fuel →
      (realignN fuel w st).eventsBuffer = [] ∨
      ∃ b bs, (realignN fuel w st).eventsBuffer = b :: bs ∧ b.who = w := by
  intro fuel
  induction fuel with
  | zero =>
    intro w st hlen
    have : st.eventsBuffer = [] := by
      cases h : st.eventsBuffer with
      | nil => rfl
      | cons x xs => rw [h] at hlen; simp at hlen
    left
    rw [realignN]
    exact this
  | succ fuel ih =>
    intro w st hlen
    cases hbuf : st.eventsBuffer with
    | nil =>
      left
      have hstep : realignN (fuel + 1) w st = st := by
        rw [realignN, hbuf]
      rw [hstep]
      exact hbuf
    | cons b rest =>
      by_cases hwho : b.who ≠ w
      · have hstep : realignN (fuel + 1) w st = realignN fuel w (finalizeOldest st) := by
          rw [realignN, hbuf]
          simp [hwho]
        rw [hstep]
        apply ih
        rw [(finalizeOldest_decomp st b rest hbuf).2]
        rw [hbuf] at hlen
        simp at hlen
        omega
      · right
        push_neg at hwho
        have hstep : realignN (fuel + 1) w st = st := by
          rw [realignN, hbuf]
          simp [hwho]
        refine ⟨b, rest, ?_, hwho⟩
        rw [hstep]
        exact hbuf

/-- The shrink and realign phases together move a prefix of the buffer to
the log (up to flags) and leave a buffer no longer than the snapshot. -/
lemma ccShrinkRealign_decomp (st : CCState) (nes : List CCEvent) :
    ∃ k, k ≤ st.eventsBuffer.length ∧
      (ccShrinkRealign st nes).events.map ccCore =
        (st.events ++ st.eventsBuffer.take k).map ccCore ∧
      (ccShrinkRealign st nes).eventsBuffer = st.eventsBuffer.drop k ∧
      (ccShrinkRealign st nes).eventsBuffer.length ≤ nes.length := by
  cases nes with
  | nil =>
    have hshr := finalizeN_decomp (st.eventsBuffer.length - 0) st (by omega)
    refine ⟨st.eventsBuffer.length - 0, by omega, hshr.1, hshr.2, ?_⟩
    have hb : (ccShrinkRealign st ([] : List CCEvent)).eventsBuffer =
        List.drop (st.eventsBuffer.length - 0) st.eventsBuffer := hshr.2
    rw [hb]
    simp
  | cons ne nes' =>
    have hshr := finalizeN_decomp
      (st.eventsBuffer.length - (ne :: nes').length) st (by omega)
    obtain ⟨d, hd, hre1, hre2⟩ := realignN_decomp
      (shrinkToLen st (ne :: nes').length).eventsBuffer.length ne.who
      (shrinkToLen st (ne :: nes').length)
    have hsr : ccShrinkRealign st (ne :: nes') =
        realignN (shrinkToLen st (ne :: nes').length).eventsBuffer.length ne.who
          (shrinkToLen st (ne :: nes').length) := rfl
    have hdd : d ≤ st.eventsBuffer.length -
        (st.eventsBuffer.length - (ne :: nes').length) := by
      unfold shrinkToLen at hd
      rw [hshr.2] at hd
      simpa using hd
    refine ⟨(st.eventsBuffer.length - (ne :: nes').length) + d, by omega, ?_, ?_, ?_⟩
    · rw [hsr, hre1]
      unfold shrinkToLen
      rw [List.map_append, hshr.1, hshr.2, List.take_add]
      simp [List.map_append, List.append_assoc]
    · rw [hsr, hre2]
      unfold shrinkToLen
      rw [hshr.2, List.drop_drop]
    · rw [hsr, hre2]
      unfold shrinkToLen
      rw [hshr.2]
      simp
      omega

/-- An empty buffer merges into the snapshot events themselves. -/
lemma mergeBufferGo_nil_buffer :
    ∀ (nes : List CCEvent) (lastIdx idx : Nat),
      mergeBufferGo lastIdx idx [] nes = some nes := by
  intro nes
  induction nes with
  | nil => intro lastIdx idx; rfl
  | cons ne nes ih =>
    intro lastIdx idx
    rw [mergeBufferGo, ih]
    rfl

/-- A successful merge produces exactly one buffered turn per snapshot
line. -/
lemma mergeBufferGo_length :
    ∀ (nes : List CCEvent) (lastIdx idx : Nat) (bs res : List CCEvent),
      mergeBufferGo lastIdx idx bs nes = some res → res.length = nes.length := by
  intro nes
  induction nes with
  | nil =>
    intro lastIdx idx bs res h
    cases bs with
    | nil =>
      have h2 := Option.some.inj h
      rw [← h2]
    | cons b bs' =>
      have h2 := Option.some.inj h
      rw [← h2]
  | cons ne nes ih =>
    intro lastIdx idx bs res h
    cases bs with
    | nil =>
      rw [mergeBufferGo] at h
      cases hrec : mergeBufferGo lastIdx (idx + 1) [] nes with
      | none => rw [hrec] at h; simp at h
      | some rest =>
        rw [hrec] at h
        have h2 := Option.some.inj h.symm
        rw [h2]
        simp [ih lastIdx (idx + 1) [] rest hrec]
    | cons b bs' =>
      rw [mergeBufferGo] at h
      cases hcf : completeFromUpdate b ne (decide (idx ≠ lastIdx)) with
      | none => rw [hcf] at h; simp at h
      | some b' =>
        rw [hcf] at h
        cases hrec : mergeBufferGo lastIdx (idx + 1) bs' nes with
        | none => rw [hrec] at h; simp at h
        | some rest =>
          rw [hrec] at h
          simp at h
          rw [← h]
          simp [ih lastIdx (idx + 1) bs' rest hrec]

/-- Full decomposition of one reconciliation round: some prefix of the old
buffer is moved (up to classification flags) to the end of the finalized
log, and the new buffer is the merge of the remaining old buffer with the
snapshot events. -/
lemma mergeLatestCC_decomp (st : CCState) (snapshot : List (String × List Char))
    (now : Int) (st' : CCState) (h : mergeLatestCC st snapshot now = some st') :
    st'.eventsBuffer.length = snapshot.length ∧
    ∃ k, k ≤ st.eventsBuffer.length ∧
      st'.events.map ccCore = (st.events ++ st.eventsBuffer.take k).map ccCore ∧
      mergeBufferGo (snapshot.length - 1) 0 (st.eventsBuffer.drop k)
        (ccNewEvents snapshot now) = some st'.eventsBuffer := by
  obtain ⟨k, hk, hev, hbuf, hlen⟩ := ccShrinkRealign_decomp st (ccNewEvents snapshot now)
  have hcond : (ccNewEvents snapshot now).length ≥
      (ccShrinkRealign st (ccNewEvents snapshot now)).eventsBuffer.length := hlen
  have hunf : mergeLatestCC st snapshot now =
      (mergeBufferGo ((ccNewEvents snapshot now).length - 1) 0
        (ccShrinkRealign st (ccNewEvents snapshot now)).eventsBuffer
        (ccNewEvents snapshot now)).map
        (fun buf =>
          { ccShrinkRealign st (ccNewEvents snapshot now) with eventsBuffer := buf }) := by
    unfold mergeLatestCC
    rw [if_pos hcond]
  rw [hunf] at h
  cases hmb : mergeBufferGo ((ccNewEvents snapshot now).length - 1) 0
      (ccShrinkRealign st (ccNewEvents snapshot now)).eventsBuffer
      (ccNewEvents snapshot now) with
  | none => rw [hmb] at h; simp at h
  | some buf =>
    rw [hmb] at h
    have h2 := Option.some.inj h
    have hbuf' : st'.eventsBuffer = buf := by rw [← h2]
    have hev' : st'.events =
        (ccShrinkRealign st (ccNewEvents snapshot now)).events := by rw [← h2]
    have hn : (ccNewEvents snapshot now).length = snapshot.length := by
      simp [ccNewEvents]
    constructor
    · rw [hbuf']
      exact (mergeBufferGo_length (ccNewEvents snapshot now)
        ((ccNewEvents snapshot now).length - 1) 0 _ buf hmb).trans hn
    · refine ⟨k, hk, ?_, ?_⟩
      · rw [hev']
        exact hev
      · rw [hbuf', ← hbuf, ← hn]
        exact hmb

/-- C7: after a reconciliation round returns, the buffer holds exactly one
turn per well-formed snapshot line; the finalized log is the old log
followed by the prefix of the old buffer that was finalized (identical up
to classification flags), and the new buffer is the per-index merge of the
remaining old buffer with the snapshot — so a turn leaves the buffer
exactly when it is appended to the log, and no turn sits in both. -/
theorem mergeLatestCC_containers (st : CCState)
    (snapshot : List (String × List Char)) (now : Int) (st' : CCState)
    (h : mergeLatestCC st snapshot now = some st') :
    st'.eventsBuffer.length = snapshot.length ∧
    ∃ k, k ≤ st.eventsBuffer.length ∧
      st'.events.map ccCore = (st.events ++ st.eventsBuffer.take k).map ccCore ∧
      mergeBufferGo (snapshot.length - 1) 0 (st.eventsBuffer.drop k)
        (ccNewEvents snapshot now) = some st'.eventsBuffer :=
  mergeLatestCC_decomp st snapshot now st' h

/-- Snapshot used by the C7 witness. -/
def c7Snap : List (String × List Char) := [("A", ['h', 'i'])]

/-- The engine state after reconciling `c7Snap` from the empty state. -/
def c7Out : CCState :=
  { events := [], eventsBuffer := [mkCCEvent 1000 "A" ['h', 'i']] }

/-- Witness for `mergeLatestCC_containers` at a concrete round. -/
theorem mergeLatestCC_containers_witness :
    c7Out.eventsBuffer.length = c7Snap.length ∧
    ∃ k, k ≤ ({ events := [], eventsBuffer := [] } : CCState).eventsBuffer.length ∧
      c7Out.events.map ccCore =
        (({ events := [], eventsBuffer := [] } : CCState).events ++
          ({ events := [], eventsBuffer := [] } : CCState).eventsBuffer.take k).map ccCore ∧
      mergeBufferGo (c7Snap.length - 1) 0
        (({ events := [], eventsBuffer := [] } : CCState).eventsBuffer.drop k)
        (ccNewEvents c7Snap 1000) = some c7Out.eventsBuffer :=
  mergeLatestCC_containers { events := [], eventsBuffer := [] } c7Snap 1000 c7Out
    (by decide)

/-! ## Claim C5: idempotence of reconciliation -/

/-- Scanning a string against itself matches along the diagonal and finds
the overlap as long as fewer characters are required than the string has. -/
lemma scanOne_self :
    ∀ (k : Nat) (l : List Char), k < l.length → scanOne k l l = .found := by
  intro k
  induction k with
  | zero =>
    intro l hl
    cases l with
    | nil => simp at hl
    | cons c l' => rfl
  | succ k ih =>
    intro l hl
    cases l with
    | nil => simp at hl
    | cons c l' =>
      show scanInner (scanOne k) (c :: l') (c :: l') = .found
      rw [scanInner, if_pos rfl]
      exact ih l' (by simpa using hl)

/-- Merging a text with itself returns it unchanged: short texts are
replaced by themselves, long texts find the overlap at offset 0. -/
lemma mergeStrings_self (w : List Char) : mergeStrings w w = some w := by
  by_cases hshort : w.length < 30 ∧ w.length < 30
  · simp [mergeStrings, hshort]
  · have hlen : 30 ≤ w.length := by
      rcases Nat.lt_or_ge w.length 30 with h | h
      · exact absurd ⟨h, h⟩ hshort
      · exact h
    simp only [mergeStrings, if_neg hshort]
    rw [goOffsets_found w 15 w 0 (scanOne_self 15 w (by omega))]
    simp

/-- Merging a buffered turn with an update carrying the same text leaves
the turn unchanged. -/
lemma completeFromUpdate_id (b ne : CCEvent) (sameTime : Bool)
    (hw : b.what = ne.what) :
    completeFromUpdate b ne sameTime = some b := by
  have hlen : b.what.length = ne.what.length := by rw [hw]
  simp only [completeFromUpdate]
  rw [if_neg (fun hc => hc.1 hlen)]
  rw [hw, mergeStrings_self]
  simp only [Option.map_some']
  rw [← hw]

/-- If per-index texts agree, the merge loop is the identity on the
buffer. -/
lemma mergeBufferGo_id :
    ∀ (nes bs : List CCEvent) (lastIdx idx : Nat),
      bs.length = nes.length →
      (∀ j, (bs.get? j).map (fun x => x.what) =
        (nes.get? j).map (fun x => x.what)) →
      mergeBufferGo lastIdx idx bs nes = some bs := by
  intro nes
  induction nes with
  | nil =>
    intro bs lastIdx idx hlen _
    cases bs with
    | nil => rfl
    | cons b bs' => simp at hlen
  | cons ne nes ih =>
    intro bs lastIdx idx hlen hwhat
    cases bs with
    | nil => simp at hlen
    | cons b bs' =>
      have hb : b.what = ne.what := by
        have h0 := hwhat 0
        simpa using h0
      show (completeFromUpdate b ne (decide (idx ≠ lastIdx))).bind
        (fun b' => (mergeBufferGo lastIdx (idx + 1) bs' nes).bind
          (fun rest => some (b' :: rest))) = some (b :: bs')
      rw [completeFromUpdate_id b ne _ hb]
      rw [ih bs' lastIdx (idx + 1) (by simpa using hlen)
        (fun j => by simpa using hwhat (j + 1))]
      rfl

/-- `completeFromUpdate` never changes the speaker, the start timestamp or
the classification flags. -/
lemma completeFromUpdate_frame (b ne b' : CCEvent) (sameTime : Bool)
    (h : completeFromUpdate b ne sameTime = some b') :
    b'.who = b.who ∧ b'.when = b.when := by
  simp only [completeFromUpdate] at h
  cases hm : mergeStrings b.what ne.what with
  | none => rw [hm] at h; simp at h
  | some w =>
    rw [hm] at h
    have h2 := Option.some.inj h
    rw [← h2]
    split_ifs <;> exact ⟨rfl, rfl⟩

/-- After a successful reconciliation of a non-empty snapshot, the buffer
front carries the snapshot's first speaker. -/
lemma mergeLatestCC_front (st st' : CCState) (p : String × List Char)
    (ps : List (String × List Char)) (now : Int)
    (h : mergeLatestCC st (p :: ps) now = some st') :
    ∃ b bs, st'.eventsBuffer = b :: bs ∧ b.who = p.1 := by
  obtain ⟨k, hk, hev, hbuf, hlen⟩ := ccShrinkRealign_decomp st (ccNewEvents (p :: ps) now)
  have hcond : (ccNewEvents (p :: ps) now).length ≥
      (ccShrinkRealign st (ccNewEvents (p :: ps) now)).eventsBuffer.length := hlen
  have hunf : mergeLatestCC st (p :: ps) now =
      (mergeBufferGo ((ccNewEvents (p :: ps) now).length - 1) 0
        (ccShrinkRealign st (ccNewEvents (p :: ps) now)).eventsBuffer
        (ccNewEvents (p :: ps) now)).map
        (fun buf =>
          { ccShrinkRealign st (ccNewEvents (p :: ps) now) with eventsBuffer := buf }) := by
    unfold mergeLatestCC
    rw [if_pos hcond]
  rw [hunf] at h
  have hpost := realignN_post
    (shrinkToLen st (ccNewEvents (p :: ps) now).length).eventsBuffer.length
    (mkCCEvent now p.1 p.2).who
    (shrinkToLen st (ccNewEvents (p :: ps) now).length) (Nat.le_refl _)
  have hsr : ccShrinkRealign st (ccNewEvents (p :: ps) now) =
      realignN (shrinkToLen st (ccNewEvents (p :: ps) now).length).eventsBuffer.length
        (mkCCEvent now p.1 p.2).who
        (shrinkToLen st (ccNewEvents (p :: ps) now).length) := rfl
  rw [← hsr] at hpost
  cases hpost with
  | inl hempty =>
    rw [hempty] at h
    rw [mergeBufferGo_nil_buffer] at h
    have h2 := Option.some.inj h
    refine ⟨mkCCEvent now p.1 p.2, ccNewEvents ps now, ?_, rfl⟩
    rw [← h2]
    rfl
  | inr hfront =>
    obtain ⟨b, bs, hfr, hwho⟩ := hfront
    rw [hfr] at h
    have hne : ccNewEvents (p :: ps) now =
        mkCCEvent now p.1 p.2 :: ccNewEvents ps now := rfl
    rw [hne] at h
    rw [mergeBufferGo] at h
    cases hcf : completeFromUpdate b (mkCCEvent now p.1 p.2)
        (decide (0 ≠ (ccNewEvents (p :: ps) now).length - 1)) with
    | none =>
      rw [hne] at hcf
      rw [hcf] at h
      simp at h
    | some b' =>
      rw [hne] at hcf
      rw [hcf] at h
      cases hrec : mergeBufferGo ((mkCCEvent now p.1 p.2 :: ccNewEvents ps now).length - 1)
          1 bs (ccNewEvents ps now) with
      | none => rw [hrec] at h; simp at h
      | some rest =>
        rw [hrec] at h
        simp only [Option.bind] at h
        have h2 := Option.some.inj h
        refine ⟨b', rest, ?_, ?_⟩
        · rw [← h2]
        · rw [(completeFromUpdate_frame b (mkCCEvent now p.1 p.2) b' _ hcf).1]
          exact hwho

/-- C5 (amended): reconciling the same snapshot again is the identity
provided the first round left every buffered turn's text equal to the
corresponding snapshot text (as happens when turns are fresh or merges
find their overlap); without that proviso the concatenation fallback of
the text merge re-appends the update on every round. -/
theorem mergeLatestCC_idempotent (st s1 : CCState)
    (snapshot : List (String × List Char)) (t1 t2 : Int)
    (h1 : mergeLatestCC st snapshot t1 = some s1)
    (htext : ∀ j, (s1.eventsBuffer.get? j).map (fun x => x.what) =
      (snapshot.get? j).map (fun p => p.2)) :
    mergeLatestCC s1 snapshot t2 = some s1 := by
  have hlen1 : s1.eventsBuffer.length = snapshot.length :=
    (mergeLatestCC_decomp st snapshot t1 s1 h1).1
  have hshrink : shrinkToLen s1 (ccNewEvents snapshot t2).length = s1 := by
    unfold shrinkToLen
    have hz : s1.eventsBuffer.length - (ccNewEvents snapshot t2).length = 0 := by
      simp [ccNewEvents]
      omega
    rw [hz]
    rfl
  have hbufid : mergeBufferGo ((ccNewEvents snapshot t2).length - 1) 0
      s1.eventsBuffer (ccNewEvents snapshot t2) = some s1.eventsBuffer := by
    apply mergeBufferGo_id
    · simp [ccNewEvents, hlen1]
    · intro j
      have hr : ((ccNewEvents snapshot t2).get? j).map (fun x => x.what) =
          (snapshot.get? j).map (fun p => p.2) := by
        show ((snapshot.map (fun p => mkCCEvent t2 p.1 p.2)).get? j).map
          (fun x => x.what) = (snapshot.get? j).map (fun p => p.2)
        rw [List.get?_map]
        cases snapshot.get? j <;> rfl
      rw [hr]
      exact htext j
  cases snapshot with
  | nil =>
    have hst2 : ccShrinkRealign s1 (ccNewEvents [] t2) = s1 := hshrink
    have hcond : (ccNewEvents ([] : List (String × List Char)) t2).length ≥
        (ccShrinkRealign s1 (ccNewEvents [] t2)).eventsBuffer.length := by
      rw [hst2, hlen1]
      simp [ccNewEvents]
    unfold mergeLatestCC
    rw [if_pos hcond, hst2, hbufid]
    rfl
  | cons p ps =>
    obtain ⟨b, bs, hfr, hwho⟩ := mergeLatestCC_front st s1 p ps t1 h1
    have hst2 : ccShrinkRealign s1 (ccNewEvents (p :: ps) t2) = s1 := by
      have hsr : ccShrinkRealign s1 (ccNewEvents (p :: ps) t2) =
          realignN
            (shrinkToLen s1 (ccNewEvents (p :: ps) t2).length).eventsBuffer.length
            (mkCCEvent t2 p.1 p.2).who
            (shrinkToLen s1 (ccNewEvents (p :: ps) t2).length) := rfl
      rw [hsr, hshrink]
      have hl : s1.eventsBuffer.length = bs.length + 1 := by
        rw [hfr]
        rfl
      rw [hl, realignN, hfr]
      have hwmk : (mkCCEvent t2 p.1 p.2).who = p.1 := rfl
      simp [hwmk, hwho]
    have hcond : (ccNewEvents (p :: ps) t2).length ≥
        (ccShrinkRealign s1 (ccNewEvents (p :: ps) t2)).eventsBuffer.length := by
      rw [hst2, hlen1]
      simp [ccNewEvents]
    unfold mergeLatestCC
    rw [if_pos hcond, hst2, hbufid]
    rfl

/-- A 31-character text, long enough to defeat the short-string override. -/
def c5Text31 : List Char := List.replicate 31 'X'

/-- First snapshot of the C5 counterexample. -/
def c5Snap1 : List (String × List Char) := [("A", c5Text31)]

/-- Second snapshot of the C5 counterexample, repeated twice. -/
def c5Snap2 : List (String × List Char) := [("A", ['a', 'b'])]

/-- State after reconciling `c5Snap1` from the empty state. -/
def c5S1 : CCState :=
  { events := [], eventsBuffer := [mkCCEvent 1000 "A" c5Text31] }

/-- State after the first reconciliation of `c5Snap2`: no overlap is found,
so the text is concatenated. -/
def c5S2 : CCState :=
  { events := []
    eventsBuffer := [{ when := 900
                       whenSpokeLast := 1900
                       who := "A"
                       what := c5Text31 ++ ['a', 'b']
                       howLong := 1100
                       interjection := false
                       continuation := false }] }

/-- State after the second reconciliation of the identical snapshot
`c5Snap2`: the text grows again and the timing fields move. -/
def c5S3 : CCState :=
  { events := []
    eventsBuffer := [{ when := 900
                       whenSpokeLast := 2900
                       who := "A"
                       what := c5Text31 ++ ['a', 'b', 'a', 'b']
                       howLong := 2200
                       interjection := false
                       continuation := false }] }

/-- C5 counterexample: reconciling the identical snapshot `c5Snap2` a second
time changes the buffer — the concatenation fallback appends the update text
again and the duration keeps growing — so reconciliation is not idempotent
as claimed. -/
theorem mergeLatestCC_claim_false :
    mergeLatestCC { events := [], eventsBuffer := [] } c5Snap1 1000 = some c5S1 ∧
    mergeLatestCC c5S1 c5Snap2 2000 = some c5S2 ∧
    mergeLatestCC c5S2 c5Snap2 3000 = some c5S3 ∧
    c5S3.eventsBuffer ≠ c5S2.eventsBuffer := by
  refine ⟨by decide, by decide, by decide, by decide⟩

/-- Snapshot for the C5 witness. -/
def c5WSnap : List (String × List Char) := [("B", ['h', 'i'])]

/-- Buffer state produced by reconciling `c5WSnap` from the empty state. -/
def c5WOut : CCState :=
  { events := [], eventsBuffer := [mkCCEvent 500 "B" ['h', 'i']] }

/-- Witness for `mergeLatestCC_idempotent` at a concrete round whose
buffered text equals the snapshot text. -/
theorem mergeLatestCC_idempotent_witness :
    mergeLatestCC c5WOut c5WSnap 700 = some c5WOut :=
  mergeLatestCC_idempotent { events := [], eventsBuffer := [] } c5WOut c5WSnap
    500 700 (by decide)
    (fun j => by
      cases j with
      | zero => rfl
      | succ j => rfl)
